import Mathlib

/-
Verification of the referral reward distribution engine of MagRelo/referralTree.

The simulation core lives in src/simulation/referral_model.py.  Monetary
quantities there are Python floats; we embed them as exact rationals, so every
arithmetic step of the source is mirrored by the corresponding exact operation
(the counterexamples below are placed at dyadic points where the float
computation of the source is itself exact).  Users are agents in a list, as in
the Mesa model, and lookups scan the list in order exactly as the source does.

The contract-matching fixed-geometric reward path (0.6-ratio weight table, the
10-recipient cap at the ROOT sentinel and the InvalidAmount / UnknownUser
validation) belongs to the smart-contract revision of the repository that is
referenced by the python comments but is not present under src/; the
definitions for it are modelled from the spec and are marked as such.
-/

namespace ReferralTree

/-- `DecayType` from referral_model.py: reward decay types matching the
smart contract. -/
inductive DecayType where
  | linear
  | exponential
  | fixed
deriving DecidableEq, Repr

/-- The reward parameters held on `ReferralModel` (referral_model.py,
`__init__`): decay type, decay factor in basis points, minimum reward, and
the basis-point share of the original user. -/
structure Config where
  rewardDecayType : DecayType
  rewardDecayFactor : ℚ
  minReward : ℚ
  originalUserPercentage : ℚ
deriving DecidableEq

/-- A `UserAgent` of referral_model.py restricted to the fields the reward
engine reads or writes: identity, referrer link, activity flag, accumulated
rewards and the time of the last reward.  The remaining fields
(referral_count, pending_rewards, referral_level, join_time) are never
consulted by the traversal or distribution code. -/
structure Agent where
  uniqueId : ℤ
  referrerId : Option ℤ
  active : Bool
  totalRewards : ℚ
  lastRewardTime : ℤ
deriving DecidableEq

/-- `RewardEvent` of referral_model.py.  The derived md5 `event_id` is a
stable hash of the remaining fields and is never read by the distribution
logic, so it is not modelled. -/
structure RewardEvent where
  userId : ℤ
  totalAmount : ℚ
  eventType : String
  timestamp : ℤ
deriving DecidableEq

/-- The mutable state of `ReferralModel` touched by reward distribution:
the agent population, the event ledger and its running totals, and the
current step used to stamp `last_reward_time`. -/
structure SimState where
  agents : List Agent
  rewardEvents : List RewardEvent
  totalRewardsDistributed : ℚ
  rewardDistributionCount : ℕ
  currentStep : ℤ
deriving DecidableEq

/-- The `for agent in self.agents: if agent.unique_id == ...` scan used
throughout referral_model.py to resolve a user id to its agent. -/
def findAgent (agents : List Agent) (uid : ℤ) : Option Agent :=
  agents.find? (fun a => a.uniqueId == uid)

/-- The body of the while loop of `_get_referral_chain` (referral_model.py,
lines 246-268).  State: the current id (None once a root is passed), the
chain built so far and the seen-set `visited` (kept as a list; the source
adds exactly the chain elements to it).  Each pass appends the current id,
looks up its referrer by scanning the agents, and breaks once the chain
length exceeds 50. -/
def chainGo (agents : List Agent) (current : Option ℤ) (chain visited : List ℤ) :
    List ℤ :=
  match current with
  | none => chain
  | some c =>
    if c ∈ visited then chain
    else
      let next := (findAgent agents c).bind (fun a => a.referrerId)
      if (chain ++ [c]).length > 50 then chain ++ [c]
      else chainGo agents next (chain ++ [c]) (c :: visited)
termination_by 51 - chain.length
decreasing_by
  simp_all [List.length_append]
  omega

/-- `_get_referral_chain`: traverse from the user up to a root, with the
seen-set and the depth break of the source. -/
def getReferralChain (agents : List Agent) (userId : ℤ) : List ℤ :=
  chainGo agents (some userId) [] []

/-- The `for i in range(level)` loop of the EXPONENTIAL branch of
`_calculate_level_reward` (referral_model.py, lines 322-329): repeatedly
take `factor/10000` of the reward, returning `min_reward` as soon as the
reward drops below it. -/
def expLoop (factor minReward reward : ℚ) : ℕ → ℚ
  | 0 => reward
  | n + 1 =>
    let r := reward * factor / 10000
    if r < minReward then minReward else expLoop factor minReward r n

/-- `_calculate_level_reward` (referral_model.py, lines 312-335): the three
decay branches.  The python divisions are true divisions (no flooring); they
are mirrored by exact rational division. -/
def calcLevelReward (cfg : Config) (baseAmount : ℚ) (level : ℕ) : ℚ :=
  match cfg.rewardDecayType with
  | DecayType.linear =>
    let decayAmount := baseAmount * cfg.rewardDecayFactor * level / 10000
    if decayAmount ≥ baseAmount then cfg.minReward
    else max (baseAmount - decayAmount) cfg.minReward
  | DecayType.exponential => expLoop cfg.rewardDecayFactor cfg.minReward baseAmount level
  | DecayType.fixed => max cfg.rewardDecayFactor cfg.minReward

/-- The level-reward computation of one pass of the loop of
`_calculate_chain_rewards` (referral_model.py, lines 290-295): ask the decay
policy for the reward at 1-based level `i + 1`, and if it came back below
`min_reward`, replace it by `min(remaining, min_reward)` when the remainder
still covers the minimum, by 0 otherwise. -/
def adjustedLevelReward (cfg : Config) (remaining : ℚ) (i : ℕ) : ℚ :=
  let levelReward := calcLevelReward cfg remaining (i + 1)
  if levelReward < cfg.minReward then
    if remaining ≥ cfg.minReward then min remaining cfg.minReward else 0
  else levelReward

/-- The `for i in range(num_referrers)` loop of `_calculate_chain_rewards`
(referral_model.py, lines 286-302), recursing over the chain beyond the
original user with the running 0-based loop index `i` and the remaining
amount.  The source breaks when the remaining amount is below `min_reward`,
credits only a positive adjusted reward that fits in the remainder, and
otherwise breaks. -/
def chainLoop (cfg : Config) : List ℤ → ℕ → ℚ → List ℤ × List ℚ
  | [], _, _ => ([], [])
  | rid :: rest, i, remaining =>
    if remaining < cfg.minReward then ([], [])
    else
      let levelReward := adjustedLevelReward cfg remaining i
      if 0 < levelReward ∧ levelReward ≤ remaining then
        let tail := chainLoop cfg rest (i + 1) (remaining - levelReward)
        (rid :: tail.1, levelReward :: tail.2)
      else ([], [])

/-- `_calculate_chain_rewards` (referral_model.py, lines 270-310): the
original user receives `total * pct / 10000`, the rest of the chain is fed
through the level loop on the remainder. -/
def calcChainRewards (cfg : Config) (totalAmount : ℚ) (chain : List ℤ) :
    List ℤ × List ℚ :=
  match chain with
  | [] => ([], [])
  | c0 :: rest =>
    let originalUserReward := totalAmount * cfg.originalUserPercentage / 10000
    let remainingForChain := totalAmount - originalUserReward
    let tail := chainLoop cfg rest 0 remainingForChain
    (c0 :: tail.1, originalUserReward :: tail.2)

/-- The inner `for agent in self.agents` loop of `_distribute_chain_rewards`
(referral_model.py, lines 234-239): find the recipient by id, add the amount
to its total, stamp the reward time and report the amount as distributed;
an id that matches no agent distributes nothing. -/
def creditOne (step : ℤ) (rid : ℤ) (amount : ℚ) : List Agent → List Agent × ℚ
  | [] => ([], 0)
  | a :: rest =>
    if a.uniqueId == rid then
      ({ a with totalRewards := a.totalRewards + amount, lastRewardTime := step } :: rest,
        amount)
    else
      let tail := creditOne step rid amount rest
      (a :: tail.1, tail.2)

/-- The outer `for recipient_id, amount in zip(recipients, amounts)` loop of
`_distribute_chain_rewards` (lines 231-239): skip non-positive amounts,
credit the rest in order, accumulating the total actually distributed.  The
source increments `total_distributed` inside the found-agent branch only, so
an amount whose recipient id matches no agent contributes nothing: this is
the second component of `creditOne`, which is the amount when the agent was
found and 0 otherwise. -/
def creditAll (step : ℤ) : List (ℤ × ℚ) → List Agent → List Agent × ℚ
  | [], agents => (agents, 0)
  | (rid, amt) :: rest, agents =>
    if 0 < amt then
      let first := creditOne step rid amt agents
      let others := creditAll step rest first.1
      (others.1, first.2 + others.2)
    else creditAll step rest agents

/-- `_distribute_chain_rewards` (referral_model.py, lines 218-244): build the
chain, compute the distribution, credit every recipient, then append the
event and update the running totals.  An empty chain returns with no state
change (in the source this branch is unreachable because the chain always
starts with the queried id). -/
def distributeChainRewards (cfg : Config) (st : SimState) (ev : RewardEvent) :
    SimState :=
  let chain := getReferralChain st.agents ev.userId
  if chain = [] then st
  else
    let dist := calcChainRewards cfg ev.totalAmount chain
    let credited := creditAll st.currentStep (dist.1.zip dist.2) st.agents
    { st with
      agents := credited.1
      rewardEvents := st.rewardEvents ++ [ev]
      totalRewardsDistributed := st.totalRewardsDistributed + credited.2
      rewardDistributionCount := st.rewardDistributionCount + 1 }

/-- Rewrite only the `active` flag of every agent according to `f`; used to
state that reward distribution is blind to activity. -/
def setFlags (agents : List Agent) (f : ℤ → Bool) : List Agent :=
  agents.map (fun a => { a with active := f a.uniqueId })

/-- `setFlags` lifted to the simulation state. -/
def setFlagsState (st : SimState) (f : ℤ → Bool) : SimState :=
  { st with agents := setFlags st.agents f }

/-- Modelled from the spec: the per-level weight table for the 0.6-ratio
fixed-geometric mode of the contract-side revision, absent from src/
(spec section 4.3 step 4). -/
def geometricWeights : List ℕ :=
  [10000, 6000, 3600, 2160, 1296, 777, 466, 279, 167, 100]

/-- Modelled from the spec: cumulative sum of the first `n` geometric
weights (spec section 4.3 step 4). -/
def cumulativeWeight (n : ℕ) : ℕ :=
  (geometricWeights.take n).sum

/-- Modelled from the spec: add the rounding shortfall
`remaining - (sum of the amounts)` in full to the first amount
(spec section 4.3 step 4). -/
def addShortfall (remaining : ℕ) : List ℕ → List ℕ
  | [] => []
  | a0 :: rest => (a0 + (remaining - (a0 :: rest).sum)) :: rest

/-- Modelled from the spec: the chain amounts of fixed-geometric mode for
`n` recipients sharing `remaining` (spec section 4.3 step 4):
`amount i = floor (remaining * weight i / cumulativeWeight n)`, with the
rounding shortfall added in full to the first amount. -/
def fixedGeometricChainAmounts (remaining n : ℕ) : List ℕ :=
  addShortfall remaining ((List.range n).map
    (fun i => remaining * geometricWeights.getD i 0 / cumulativeWeight n))

/-- Modelled from the spec: the floored basis-point share of the original
user in the contract-side integer arithmetic (spec section 4.3 step 2). -/
def originalShareFG (gross bps : ℕ) : ℕ :=
  gross * bps / 10000

/-- Modelled from the spec: the full amount list of fixed-geometric mode,
original-user share first, then the chain amounts computed on the remainder
for `n` eligible recipients (spec section 4.3 steps 2 and 4). -/
def fixedGeometricDistribution (gross bps n : ℕ) : List ℕ :=
  let original := originalShareFG gross bps
  let remaining := gross - original
  original :: fixedGeometricChainAmounts remaining n

/-- Modelled from the spec: the recipient count of the contract-side
calculator (spec section 4.3 step 3): the chain positions strictly between
the triggering user and the ROOT sentinel (all remaining positions when the
sentinel never occurs), capped at 10. -/
def numRecipientsSpec (chain : List ℤ) (root : ℤ) : ℕ :=
  min ((chain.drop 1).takeWhile (fun x => x != root)).length 10

/-- Modelled from the spec: fixed-geometric mode applied to a concrete
chain with a ROOT sentinel (spec section 4.3 steps 1-4). -/
def fixedGeometricCalc (gross bps : ℕ) (chain : List ℤ) (root : ℤ) : List ℕ :=
  fixedGeometricDistribution gross bps (numRecipientsSpec chain root)

/-- Modelled from the spec: the error taxonomy of the calculator
(spec sections 4.3 and 7), absent from src/. -/
inductive CalcError where
  | invalidAmount
  | unknownUser
deriving DecidableEq, Repr

/-- Modelled from the spec: the validation layer of the reward calculator
(spec section 4.3, error conditions), absent from src/: a negative gross
amount fails with InvalidAmount, an unknown triggering user fails with
UnknownUser, and on failure the state is returned untouched; otherwise the
src distribution runs. -/
def runEventChecked (cfg : Config) (st : SimState) (ev : RewardEvent) :
    SimState × Option CalcError :=
  if ev.totalAmount < 0 then (st, some CalcError.invalidAmount)
  else if findAgent st.agents ev.userId = none then (st, some CalcError.unknownUser)
  else (distributeChainRewards cfg st ev, none)

/-- A linear referral graph used for concrete evaluations: agent `i` was
referred by agent `i + 1`. -/
def mkLineAgent (i : ℕ) : Agent :=
  { uniqueId := (i : ℤ), referrerId := some ((i : ℤ) + 1), active := true,
    totalRewards := 0, lastRewardTime := 0 }

/-- The first `n` agents of the linear graph. -/
def lineAgents (n : ℕ) : List Agent :=
  (List.range n).map mkLineAgent

lemma chainGo_none (agents : List Agent) (chain visited : List ℤ) :
    chainGo agents none chain visited = chain := by
  unfold chainGo
  rfl

lemma chainGo_some (agents : List Agent) (c : ℤ) (chain visited : List ℤ) :
    chainGo agents (some c) chain visited =
      if c ∈ visited then chain
      else if (chain ++ [c]).length > 50 then chain ++ [c]
      else chainGo agents ((findAgent agents c).bind (fun a => a.referrerId))
        (chain ++ [c]) (c :: visited) := by
  rw [chainGo]

lemma chainGo_length_le (agents : List Agent) :
    ∀ (k : ℕ) (cur : Option ℤ) (chain visited : List ℤ),
      51 - chain.length ≤ k → chain.length ≤ 50 →
      (chainGo agents cur chain visited).length ≤ 51 := by
  intro k
  induction k with
  | zero =>
    intro cur chain visited hk hlen
    omega
  | succ k ih =>
    intro cur chain visited hk hlen
    match cur with
    | none =>
      rw [chainGo_none]
      omega
    | some c =>
      rw [chainGo_some]
      split_ifs with h1 h2
      · omega
      · simp only [List.length_append, List.length_cons, List.length_nil]
        omega
      · simp only [List.length_append, List.length_cons, List.length_nil,
          Nat.not_lt, gt_iff_lt] at h2
        refine ih _ _ _ ?_ ?_
        · simp only [List.length_append, List.length_cons, List.length_nil]
          omega
        · simp only [List.length_append, List.length_cons, List.length_nil]
          omega

lemma chainGo_nodup (agents : List Agent) :
    ∀ (k : ℕ) (cur : Option ℤ) (chain visited : List ℤ),
      51 - chain.length ≤ k → chain.Nodup → (∀ x ∈ chain, x ∈ visited) →
      (chainGo agents cur chain visited).Nodup := by
  intro k
  induction k with
  | zero =>
    intro cur chain visited hk hnd hsub
    match cur with
    | none => simpa [chainGo_none] using hnd
    | some c =>
      rw [chainGo_some]
      split_ifs with h1 h2
      · exact hnd
      · have hc : c ∉ chain := fun hmem => h1 (hsub c hmem)
        simpa [List.nodup_append] using ⟨hnd, hc⟩
      · simp only [List.length_append, List.length_cons, List.length_nil,
          Nat.not_lt, gt_iff_lt] at h2
        omega
  | succ k ih =>
    intro cur chain visited hk hnd hsub
    match cur with
    | none => simpa [chainGo_none] using hnd
    | some c =>
      rw [chainGo_some]
      have hc : c ∈ visited → chain.Nodup := fun _ => hnd
      split_ifs with h1 h2
      · exact hnd
      · have hcc : c ∉ chain := fun hmem => h1 (hsub c hmem)
        simpa [List.nodup_append] using ⟨hnd, hcc⟩
      · have hcc : c ∉ chain := fun hmem => h1 (hsub c hmem)
        refine ih _ _ _ ?_ ?_ ?_
        · simp only [List.length_append, List.length_cons, List.length_nil]
          omega
        · simpa [List.nodup_append] using ⟨hnd, hcc⟩
        · intro x hx
          simp only [List.mem_append, List.mem_singleton] at hx
          rcases hx with hx | hx
          · exact List.mem_cons_of_mem _ (hsub x hx)
          · simp [hx]

/-- Claim C6 (amended): on every graph, cyclic or corrupt ones included, the
ancestor-chain traversal terminates (it is a total function) and returns a
chain with no repeated id whose length is at most 51: the depth check of the
source runs after an id is appended, so the chain can hold one id more than
the depth bound of 50. -/
theorem claim_C6_traversal_bounded (agents : List Agent) (userId : ℤ) :
    (getReferralChain agents userId).length ≤ 51 ∧
    (getReferralChain agents userId).Nodup := by
  constructor
  · exact chainGo_length_le agents 51 (some userId) [] [] (by simp) (by simp)
  · exact chainGo_nodup agents 51 (some userId) [] [] (by simp) (by simp)
      (by simp)

/-- Claim C6 counterexample: on a 50-agent linear graph the traversal from
user 0 returns a chain of 51 ids, so the chain length is not bounded by the
maximum chain depth of 50 as the claim states. -/
theorem claim_C6_counterexample :
    ¬ ((getReferralChain (lineAgents 50) 0).length ≤ 50) := by
  simp +decide [getReferralChain, chainGo_none, chainGo_some, findAgent, lineAgents,
    mkLineAgent, List.range_succ]

lemma expLoop_ge_min (f m : ℚ) :
    ∀ (n : ℕ) (r : ℚ), m ≤ r → m ≤ expLoop f m r n := by
  intro n
  induction n with
  | zero => intro r h; simpa [expLoop] using h
  | succ n ih =>
    intro r h
    simp only [expLoop]
    split_ifs with h1
    · exact le_refl m
    · exact ih _ (le_of_not_lt h1)

lemma expLoop_no_clamp (f m : ℚ) :
    ∀ (n : ℕ) (r : ℚ),
      (∀ k, 1 ≤ k → k ≤ n → ¬ (r * (f / 10000) ^ k < m)) →
      expLoop f m r n = r * (f / 10000) ^ n := by
  intro n
  induction n with
  | zero => intro r _; simp [expLoop]
  | succ n ih =>
    intro r h
    have h1 : ¬ (r * f / 10000 < m) := by
      have := h 1 (le_refl 1) (by omega)
      simpa [pow_one, ← mul_div_assoc] using this
    simp only [expLoop, if_neg h1]
    rw [ih (r * f / 10000) ?_]
    · ring
    · intro k hk1 hkn
      have e : r * f / 10000 * (f / 10000) ^ k = r * (f / 10000) ^ (k + 1) := by
        ring
      rw [e]
      exact h (k + 1) (by omega) (by omega)

lemma expLoop_clamp (f m : ℚ) :
    ∀ (n : ℕ) (r : ℚ),
      (∃ k, 1 ≤ k ∧ k ≤ n ∧ r * (f / 10000) ^ k < m) →
      expLoop f m r n = m := by
  intro n
  induction n with
  | zero => rintro r ⟨k, hk1, hk0, _⟩; omega
  | succ n ih =>
    rintro r ⟨k, hk1, hkn, hlt⟩
    simp only [expLoop]
    split_ifs with h1
    · rfl
    · apply ih
      match k, hk1, hkn, hlt with
      | 1, _, _, hlt =>
        exact absurd (by simpa [pow_one, ← mul_div_assoc] using hlt) h1
      | (i + 2), _, hkn, hlt =>
        refine ⟨i + 1, by omega, by omega, ?_⟩
        have e : r * f / 10000 * (f / 10000) ^ (i + 1)
            = r * (f / 10000) ^ (i + 2) := by ring
        rw [e]
        exact hlt

/-- Claim C3 (amended): for every amount, factor F, minimum m and 0-based
level L, the exponential decay of the source applies the factor L + 1 times
using exact division with no flooring: if no intermediate value
`amount * (F/10000)^k` (k = 1..L+1) drops below m the result is exactly
`amount * (F/10000)^(L+1)`, and as soon as one does the policy
short-circuits to exactly m.  The floor claimed by the spec is never taken:
the python code divides floats directly. -/
theorem claim_C3_exponential_decay (F m p amount : ℚ) (L : ℕ) :
    ((∀ k, 1 ≤ k → k ≤ L + 1 → ¬ (amount * (F / 10000) ^ k < m)) →
      calcLevelReward ⟨DecayType.exponential, F, m, p⟩ amount (L + 1)
        = amount * (F / 10000) ^ (L + 1)) ∧
    ((∃ k, 1 ≤ k ∧ k ≤ L + 1 ∧ amount * (F / 10000) ^ k < m) →
      calcLevelReward ⟨DecayType.exponential, F, m, p⟩ amount (L + 1) = m) := by
  constructor
  · intro h
    simpa [calcLevelReward] using expLoop_no_clamp F m (L + 1) amount h
  · intro h
    simpa [calcLevelReward] using expLoop_clamp F m (L + 1) amount h

/-- Claim C3 counterexample: with factor 5000 bps, minimum reward 0 and
amount 1 at 0-based level 0, no intermediate value drops below the minimum,
the claimed result floor(1 * 5000^1 / 10000^1) is 0, yet the code returns
1/2: the quotient is never floored (at this dyadic point the float
computation of the source is exact, so the rational embedding is
bit-faithful). -/
theorem claim_C3_counterexample :
    calcLevelReward ⟨DecayType.exponential, 5000, 0, 8000⟩ 1 1 = 1 / 2 ∧
    (⌊(1 : ℚ) * 5000 ^ 1 / 10000 ^ 1⌋ : ℤ) = 0 ∧
    ¬ ((1 : ℚ) / 2 = ((0 : ℤ) : ℚ)) ∧
    (∀ k, 1 ≤ k → k ≤ 1 → ¬ ((1 : ℚ) * (5000 / 10000) ^ k < 0)) := by
  refine ⟨?_, ?_, ?_, ?_⟩
  · norm_num [calcLevelReward, expLoop]
  · have e : ((1 : ℚ) * 5000 ^ 1 / 10000 ^ 1) = 1 / 2 := by norm_num
    rw [e]
    exact Int.floor_eq_zero_iff.mpr (by norm_num [Set.mem_Ico])
  · norm_num
  · intro k h1 h2
    have hk : k = 1 := by omega
    subst hk
    norm_num

/-- Claim C3 witness: the amended theorem applied at factor 5000, minimum 0,
amount 1, level 0. -/
theorem claim_C3_witness :
    calcLevelReward ⟨DecayType.exponential, 5000, 0, 8000⟩ 1 (0 + 1)
      = 1 * ((5000 : ℚ) / 10000) ^ (0 + 1) :=
  (claim_C3_exponential_decay 5000 0 8000 1 0).1
    (by
      intro k h1 h2
      have hk : k = 1 := by omega
      subst hk
      norm_num)

/-- Claim C4 (amended): every basis-point quotient of the source is an exact
rational division, never floored.  First conjunct: the share of the original
user satisfies 10000 * share = gross * share_bps exactly.  Second conjunct:
the quotient of the linear branch is exact: whenever the branch neither
clamps to `min_reward` for a decay at least the base nor takes the
`min_reward` arm of the max, the returned reward satisfies
10000 * (base - reward) = base * factor * level, so the subtracted decay is
the exact quotient.  Third conjunct: the exponential branch with no
short-circuit satisfies 10000^(L+1) * reward = amount * factor^(L+1), so
every one of its L+1 quotients was exact.  Fourth conjunct: the fixed branch
performs no division at all.  Nothing is floored anywhere. -/
theorem claim_C4_no_flooring (cfg : Config) (g F m p base amount : ℚ)
    (lvl L : ℕ) (c : ℤ) (rest : List ℤ) :
    (10000 * ((calcChainRewards cfg g (c :: rest)).2.headI)
      = g * cfg.originalUserPercentage) ∧
    (¬ (base * F * (lvl : ℚ) / 10000 ≥ base) →
      m ≤ base - base * F * (lvl : ℚ) / 10000 →
      10000 * (base - calcLevelReward ⟨DecayType.linear, F, m, p⟩ base lvl)
        = base * F * (lvl : ℚ)) ∧
    ((∀ k, 1 ≤ k → k ≤ L + 1 → ¬ (amount * (F / 10000) ^ k < m)) →
      10000 ^ (L + 1)
          * calcLevelReward ⟨DecayType.exponential, F, m, p⟩ amount (L + 1)
        = amount * F ^ (L + 1)) ∧
    (calcLevelReward ⟨DecayType.fixed, F, m, p⟩ base lvl = max F m) := by
  refine ⟨?_, ?_, ?_, ?_⟩
  · simp only [calcChainRewards, List.headI]
    ring
  · intro h1 h2
    simp only [calcLevelReward]
    rw [if_neg h1, max_eq_left h2]
    ring
  · intro h
    have hcl : calcLevelReward ⟨DecayType.exponential, F, m, p⟩ amount (L + 1)
        = amount * (F / 10000) ^ (L + 1) := by
      simpa [calcLevelReward] using expLoop_no_clamp F m (L + 1) amount h
    rw [hcl, div_pow]
    have hnz : ((10000 : ℚ)) ^ (L + 1) ≠ 0 := pow_ne_zero _ (by norm_num)
    field_simp
  · simp [calcLevelReward]

/-- Claim C4 witness: the theorem applied at factor 5000 bps, minimum 0,
amount 1 and level 0, where no short-circuit occurs: the exponential reward
times 10000 equals the amount times the factor exactly. -/
theorem claim_C4_witness :
    10000 ^ (0 + 1)
        * calcLevelReward ⟨DecayType.exponential, 5000, 0, 8000⟩ 1 (0 + 1)
      = 1 * (5000 : ℚ) ^ (0 + 1) :=
  (claim_C4_no_flooring ⟨DecayType.exponential, 7000, 0, 5000⟩ 1 5000 0 8000
    10 1 1 0 7 []).2.2.1
    (by
      intro k h1 h2
      have hk : k = 1 := by omega
      subst hk
      norm_num)

/-- Claim C4 counterexample: with gross amount 1 and an 5000 bps share, the
floored share floor(1 * 5000 / 10000) is 0, but the code pays the original
user 1/2 (the float computation of the source is exact at this dyadic
point): quotients are not floored. -/
theorem claim_C4_counterexample :
    ((calcChainRewards ⟨DecayType.exponential, 7000, 0, 5000⟩ 1 [7]).2)
      = [1 / 2] ∧
    (⌊(1 : ℚ) * 5000 / 10000⌋ : ℤ) = 0 ∧ ¬ ((1 : ℚ) / 2 = ((0 : ℤ) : ℚ)) := by
  refine ⟨?_, ?_, ?_⟩
  · norm_num [calcChainRewards, chainLoop]
  · have e : ((1 : ℚ) * 5000 / 10000) = 1 / 2 := by norm_num
    rw [e]
    exact Int.floor_eq_zero_iff.mpr (by norm_num [Set.mem_Ico])
  · norm_num

lemma calcLevelReward_ge_min (cfg : Config) (base : ℚ) (lvl : ℕ)
    (h : 1 ≤ lvl) : cfg.minReward ≤ calcLevelReward cfg base lvl := by
  rcases hty : cfg.rewardDecayType with _ | _ | _
  · simp only [calcLevelReward, hty]
    split_ifs
    · exact le_refl _
    · exact le_max_right _ _
  · obtain ⟨n, rfl⟩ : ∃ n, lvl = n + 1 := ⟨lvl - 1, by omega⟩
    simp only [calcLevelReward, hty, expLoop]
    split_ifs with h1
    · exact le_refl _
    · exact expLoop_ge_min _ _ n _ (le_of_not_lt h1)
  · simp only [calcLevelReward, hty]
    exact le_max_right _ _

lemma adjustedLevelReward_ge_min (cfg : Config) (remaining : ℚ) (i : ℕ) :
    cfg.minReward ≤ adjustedLevelReward cfg remaining i := by
  have h := calcLevelReward_ge_min cfg remaining (i + 1) (by omega)
  simp only [adjustedLevelReward]
  rw [if_neg (not_lt.mpr h)]
  exact h

lemma chainLoop_sum_le (cfg : Config) :
    ∀ (rest : List ℤ) (i : ℕ) (r : ℚ), 0 ≤ r →
      ((chainLoop cfg rest i r).2).sum ≤ r := by
  intro rest
  induction rest with
  | nil => intro i r h; simpa [chainLoop] using h
  | cons rid tl ih =>
    intro i r h
    simp only [chainLoop]
    split_ifs with h1 h2
    · simpa using h
    · have hr : (0 : ℚ) ≤ r - adjustedLevelReward cfg r i := by
        have := h2.2
        linarith
      have htl := ih (i + 1) (r - adjustedLevelReward cfg r i) hr
      simp only [List.sum_cons]
      linarith
    · simpa using h

lemma chainLoop_shape (cfg : Config) :
    ∀ (rest : List ℤ) (i : ℕ) (r : ℚ),
      ∃ k, (chainLoop cfg rest i r).1 = rest.take k ∧
        (chainLoop cfg rest i r).1.length = (chainLoop cfg rest i r).2.length := by
  intro rest
  induction rest with
  | nil => intro i r; exact ⟨0, by simp [chainLoop], by simp [chainLoop]⟩
  | cons rid tl ih =>
    intro i r
    simp only [chainLoop]
    split_ifs with h1 h2
    · exact ⟨0, by simp, by simp⟩
    · obtain ⟨k, hk, hl⟩ := ih (i + 1) (r - adjustedLevelReward cfg r i)
      exact ⟨k + 1, by simp [hk, List.take_succ_cons], by simp [hl]⟩
    · exact ⟨0, by simp, by simp⟩

lemma chainLoop_amounts_ge (cfg : Config) :
    ∀ (rest : List ℤ) (i : ℕ) (r : ℚ),
      ∀ a ∈ (chainLoop cfg rest i r).2, cfg.minReward ≤ a := by
  intro rest
  induction rest with
  | nil => intro i r a ha; simp [chainLoop] at ha
  | cons rid tl ih =>
    intro i r a ha
    simp only [chainLoop] at ha
    split_ifs at ha with h1 h2
    · simp at ha
    · rcases List.mem_cons.mp ha with rfl | hmem
      · exact adjustedLevelReward_ge_min cfg r i
      · exact ih (i + 1) _ a hmem
    · simp at ha

/-- Claim C7: for every non-negative gross amount, every chain and every
decay configuration with a valid basis-point share of the original user
(0 to 10000 bps), the amounts of the Distribution Result sum to at most the
gross amount: the calculator never distributes more than the input. -/
theorem claim_C7_never_overdistributes (cfg : Config) (g : ℚ) (chain : List ℤ)
    (hg : 0 ≤ g) (hp0 : 0 ≤ cfg.originalUserPercentage)
    (hp1 : cfg.originalUserPercentage ≤ 10000) :
    ((calcChainRewards cfg g chain).2).sum ≤ g := by
  match chain with
  | [] => simpa [calcChainRewards] using hg
  | c0 :: rest =>
    simp only [calcChainRewards, List.sum_cons]
    have h0 : 0 ≤ g * cfg.originalUserPercentage / 10000 :=
      div_nonneg (mul_nonneg hg hp0) (by norm_num)
    have h1 : g * cfg.originalUserPercentage / 10000 ≤ g := by
      rw [div_le_iff₀ (by norm_num : (0 : ℚ) < 10000)]
      exact mul_le_mul_of_nonneg_left hp1 hg
    have h2 := chainLoop_sum_le cfg rest 0
      (g - g * cfg.originalUserPercentage / 10000) (by linarith)
    linarith

/-- Claim C7 witness: the theorem applied to an 80 percent configuration,
gross amount 100 and the chain [1, 2]. -/
theorem claim_C7_witness :
    ((calcChainRewards ⟨DecayType.exponential, 7000, 1 / 100, 8000⟩
        100 [1, 2]).2).sum ≤ 100 :=
  claim_C7_never_overdistributes _ 100 [1, 2] (by norm_num) (by norm_num)
    (by norm_num)

/-- Claim C9: for every non-empty chain the Distribution Result has
recipient and amount sequences of equal length, the first recipient is the
triggering user at chain position 0, and the recipients are an initial
segment of the chain in chain order (a `take` of the chain), so no
intermediate ancestor is skipped while a later one is credited. -/
theorem claim_C9_recipients_initial_segment (cfg : Config) (g : ℚ) (c : ℤ)
    (rest : List ℤ) :
    ((calcChainRewards cfg g (c :: rest)).1).length
        = ((calcChainRewards cfg g (c :: rest)).2).length ∧
    ((calcChainRewards cfg g (c :: rest)).1).head? = some c ∧
    ∃ k, (calcChainRewards cfg g (c :: rest)).1 = (c :: rest).take (k + 1) := by
  obtain ⟨k, hk, hl⟩ := chainLoop_shape cfg rest 0
    (g - g * cfg.originalUserPercentage / 10000)
  refine ⟨?_, ?_, ⟨k, ?_⟩⟩
  · simp [calcChainRewards, hl]
  · simp [calcChainRewards]
  · simp [calcChainRewards, hk, List.take_succ_cons]

/-- Claim C10: in the configurable-decay source path, for every decay type,
every remaining amount at least `min_reward` and every level at least 1, the
decay policy returns at least `min_reward`; and in every Distribution Result
each amount credited to a chain recipient (positions 1 and beyond) is at
least `min_reward`. -/
theorem claim_C10_min_reward_floor (cfg : Config) (base g : ℚ) (lvl : ℕ)
    (chain : List ℤ) (h1 : 1 ≤ lvl) (_hbase : cfg.minReward ≤ base) :
    cfg.minReward ≤ calcLevelReward cfg base lvl ∧
    ∀ a ∈ ((calcChainRewards cfg g chain).2).drop 1, cfg.minReward ≤ a := by
  refine ⟨calcLevelReward_ge_min cfg base lvl h1, ?_⟩
  match chain with
  | [] => simp [calcChainRewards]
  | c0 :: rest =>
    simp only [calcChainRewards, List.drop_succ_cons, List.drop_zero]
    exact chainLoop_amounts_ge cfg rest 0 _

/-- Claim C10 witness: the theorem applied to the exponential configuration
with minimum reward 1/100 at level 1 on base amount 10. -/
theorem claim_C10_witness :
    (1 : ℚ) / 100 ≤
      calcLevelReward ⟨DecayType.exponential, 7000, 1 / 100, 8000⟩ 10 1 :=
  (claim_C10_min_reward_floor ⟨DecayType.exponential, 7000, 1 / 100, 8000⟩
    10 0 1 [] (by norm_num) (by norm_num)).1

lemma findAgent_setFlags (A : List Agent) (f : ℤ → Bool) (uid : ℤ) :
    findAgent (setFlags A f) uid
      = (findAgent A uid).map (fun a => { a with active := f a.uniqueId }) := by
  induction A with
  | nil => simp [findAgent, setFlags]
  | cons a tl ih =>
    obtain ⟨i, ref, act, tot, lt⟩ := a
    simp only [findAgent, setFlags, List.map_cons] at ih ⊢
    by_cases h : (i == uid) = true
    · rw [List.find?_cons_of_pos _ (by simpa using h),
        List.find?_cons_of_pos _ (by simpa using h)]
      simp
    · rw [List.find?_cons_of_neg _ (by simpa using h),
        List.find?_cons_of_neg _ (by simpa using h)]
      exact ih

lemma chainGo_setFlags (A : List Agent) (f : ℤ → Bool) :
    ∀ (k : ℕ) (cur : Option ℤ) (chain visited : List ℤ),
      51 - chain.length ≤ k →
      chainGo (setFlags A f) cur chain visited = chainGo A cur chain visited := by
  intro k
  induction k with
  | zero =>
    intro cur chain visited hk
    match cur with
    | none => rw [chainGo_none, chainGo_none]
    | some c =>
      rw [chainGo_some, chainGo_some]
      split_ifs with h1 h2
      · rfl
      · rfl
      · simp only [List.length_append, List.length_cons, List.length_nil,
          Nat.not_lt, gt_iff_lt] at h2
        omega
  | succ k ih =>
    intro cur chain visited hk
    match cur with
    | none => rw [chainGo_none, chainGo_none]
    | some c =>
      rw [chainGo_some, chainGo_some]
      split_ifs with h1 h2
      · rfl
      · rfl
      · rw [findAgent_setFlags]
        have hb : ((findAgent A c).map
              (fun a => { a with active := f a.uniqueId })).bind
              (fun a => a.referrerId)
            = (findAgent A c).bind (fun a => a.referrerId) := by
          cases findAgent A c <;> rfl
        rw [hb]
        refine ih _ _ _ ?_
        simp only [List.length_append, List.length_cons, List.length_nil]
        omega

lemma creditOne_setFlags (step rid : ℤ) (amt : ℚ) (f : ℤ → Bool) :
    ∀ A : List Agent,
      creditOne step rid amt (setFlags A f)
        = (setFlags (creditOne step rid amt A).1 f,
           (creditOne step rid amt A).2) := by
  intro A
  induction A with
  | nil => simp [creditOne, setFlags]
  | cons a tl ih =>
    obtain ⟨i, ref, act, tot, lt⟩ := a
    simp only [setFlags, List.map_cons, creditOne] at ih ⊢
    by_cases h : (i == rid) = true
    · simp [h]
    · simp only [h, Bool.false_eq_true, if_false, ih, List.map_cons]

lemma creditAll_setFlags (step : ℤ) (f : ℤ → Bool) :
    ∀ (ps : List (ℤ × ℚ)) (A : List Agent),
      creditAll step ps (setFlags A f)
        = (setFlags (creditAll step ps A).1 f, (creditAll step ps A).2) := by
  intro ps
  induction ps with
  | nil => intro A; simp [creditAll]
  | cons p rest ih =>
    intro A
    obtain ⟨rid, amt⟩ := p
    simp only [creditAll]
    split_ifs with h
    · rw [creditOne_setFlags, ih]
    · exact ih A

/-- Claim C8: deactivating users does not affect reward flow.  Rewriting the
activity flags of the population in any way leaves the ancestor chain of
every user unchanged, and reward distribution commutes with the rewriting:
an inactive user appears in chains and is credited exactly as an active one
would be (neither the traversal nor the crediting code reads the flag). -/
theorem claim_C8_activity_blind (st : SimState) (f : ℤ → Bool) (u : ℤ)
    (cfg : Config) (ev : RewardEvent) :
    getReferralChain (setFlags st.agents f) u = getReferralChain st.agents u ∧
    distributeChainRewards cfg (setFlagsState st f) ev
      = setFlagsState (distributeChainRewards cfg st ev) f := by
  have hchain : ∀ v, getReferralChain (setFlags st.agents f) v
      = getReferralChain st.agents v := fun v =>
    chainGo_setFlags st.agents f 51 (some v) [] [] (by simp)
  refine ⟨hchain u, ?_⟩
  simp only [distributeChainRewards, setFlagsState]
  rw [hchain ev.userId]
  split_ifs with h
  · rfl
  · rw [creditAll_setFlags]

lemma add_div_le (a b c : ℕ) : a / c + b / c ≤ (a + b) / c := by
  rcases Nat.eq_zero_or_pos c with rfl | hc
  · simp
  · rw [Nat.le_div_iff_mul_le hc, Nat.add_mul]
    have h1 := Nat.div_mul_le_self a c
    have h2 := Nat.div_mul_le_self b c
    omega

lemma sum_map_div_le (c : ℕ) : ∀ l : List ℕ, (l.map (fun a => a / c)).sum ≤ l.sum / c := by
  intro l
  induction l with
  | nil => simp
  | cons a tl ih =>
    simp only [List.map_cons, List.sum_cons]
    exact le_trans (Nat.add_le_add_left ih _) (add_div_le a tl.sum c)

lemma sum_map_mul_left_nat (r : ℕ) (f : ℕ → ℕ) :
    ∀ l : List ℕ, (l.map (fun i => r * f i)).sum = r * (l.map f).sum := by
  intro l
  induction l with
  | nil => simp
  | cons a tl ih =>
    simp only [List.map_cons, List.sum_cons, ih, Nat.mul_add]

lemma cumulativeWeight_pos (n : ℕ) (h1 : 1 ≤ n) (h2 : n ≤ 10) :
    0 < cumulativeWeight n := by
  interval_cases n <;> decide

lemma range_weights_sum (n : ℕ) (h2 : n ≤ 10) :
    ((List.range n).map (fun i => geometricWeights.getD i 0)).sum
      = cumulativeWeight n := by
  interval_cases n <;> decide

lemma geometric_base_sum_le (remaining n : ℕ) (h1 : 1 ≤ n) (h2 : n ≤ 10) :
    (((List.range n).map
      (fun i => remaining * geometricWeights.getD i 0 / cumulativeWeight n))).sum
      ≤ remaining := by
  have hmap : ((List.range n).map
        (fun i => remaining * geometricWeights.getD i 0 / cumulativeWeight n))
      = (((List.range n).map (fun i => remaining * geometricWeights.getD i 0)).map
          (fun a => a / cumulativeWeight n)) := by
    rw [List.map_map]
    rfl
  rw [hmap]
  refine le_trans (sum_map_div_le _ _) ?_
  rw [sum_map_mul_left_nat, range_weights_sum n h2,
    Nat.mul_div_cancel remaining (cumulativeWeight_pos n h1 h2)]

lemma addShortfall_sum (remaining : ℕ) :
    ∀ base : List ℕ, base ≠ [] → base.sum ≤ remaining →
      (addShortfall remaining base).sum = remaining := by
  intro base hne hle
  match base with
  | a0 :: rest =>
    simp only [addShortfall, List.sum_cons] at hle ⊢
    omega

lemma addShortfall_length (remaining : ℕ) :
    ∀ base : List ℕ, (addShortfall remaining base).length = base.length := by
  intro base
  match base with
  | [] => rfl
  | a0 :: rest => rfl

lemma originalShareFG_le (gross bps : ℕ) (hb : bps ≤ 10000) :
    originalShareFG gross bps ≤ gross := by
  simp only [originalShareFG]
  calc gross * bps / 10000 ≤ gross * 10000 / 10000 :=
        Nat.div_le_div_right (Nat.mul_le_mul_left _ hb)
    _ = gross := Nat.mul_div_cancel gross (by norm_num)

/-- Claim C1: in fixed-geometric mode, for every gross amount, every valid
basis-point original-user share, and every eligible recipient count between
1 and 10, the per-recipient amounts are computed from the 0.6-ratio weight
table with the rounding shortfall added to the first recipient, and the
original share plus the chain amounts sum exactly to the gross amount. -/
theorem claim_C1_fixed_geometric_exact_sum (gross bps n : ℕ)
    (hb : bps ≤ 10000) (h1 : 1 ≤ n) (h2 : n ≤ 10) :
    (fixedGeometricDistribution gross bps n).sum = gross := by
  have horig := originalShareFG_le gross bps hb
  have hbase := geometric_base_sum_le (gross - originalShareFG gross bps) n h1 h2
  have hne : ((List.range n).map
      (fun i => (gross - originalShareFG gross bps) * geometricWeights.getD i 0 /
        cumulativeWeight n)) ≠ [] := by
    intro hnil
    have := congrArg List.length hnil
    simp at this
    omega
  have hsum := addShortfall_sum (gross - originalShareFG gross bps) _ hne hbase
  simp only [fixedGeometricDistribution, fixedGeometricChainAmounts,
    List.sum_cons] at hsum ⊢
  omega

/-- Claim C1 witness: the theorem applied to the concrete scenario of the
spec: gross 100, share 8000 bps, two eligible recipients. -/
theorem claim_C1_witness : (fixedGeometricDistribution 100 8000 2).sum = 100 :=
  claim_C1_fixed_geometric_exact_sum 100 8000 2 (by norm_num) (by norm_num)
    (by norm_num)

/-- Sanity check against the worked example of the spec (section 8): gross
100 at 8000 bps with two eligible recipients yields 80 for the original
user and 13 and 7 for the chain, the shortfall of 1 going to the first. -/
lemma fixedGeometric_spec_scenario :
    fixedGeometricDistribution 100 8000 2 = [80, 13, 7] := by decide

/-- Sanity check: the cumulative weight table matches the eleven values
listed in the spec (section 4.3 step 4). -/
lemma cumulativeWeight_table :
    (List.range 11).map cumulativeWeight
      = [0, 10000, 16000, 19600, 21760, 23056, 23833, 24299, 24578, 24745,
         24845] := by decide

lemma fixedGeometricChainAmounts_length (remaining n : ℕ) :
    (fixedGeometricChainAmounts remaining n).length = n := by
  simp [fixedGeometricChainAmounts, addShortfall_length]

/-- Claim C2: for every referral chain with more than 10 ancestors strictly
between the triggering user and the ROOT sentinel, the fixed-geometric
calculator credits exactly 10 chain recipients: the cap of 10 applies no
matter how many ancestors the chain holds. -/
theorem claim_C2_recipient_cap (gross bps : ℕ) (chain : List ℤ) (root : ℤ)
    (h : 10 < ((chain.drop 1).takeWhile (fun x => x != root)).length) :
    ((fixedGeometricCalc gross bps chain root).drop 1).length = 10 := by
  have hn : numRecipientsSpec chain root = 10 := by
    simp only [numRecipientsSpec]
    omega
  simp only [fixedGeometricCalc, hn, fixedGeometricDistribution,
    List.drop_succ_cons, List.drop_zero]
  exact fixedGeometricChainAmounts_length _ 10

/-- Claim C2 witness: the theorem applied to a 12-user chain with the ROOT
sentinel -1 never reached: exactly 10 chain recipients are credited. -/
theorem claim_C2_witness :
    ((fixedGeometricCalc 100 8000 [0, 1, 2, 3, 4, 5, 6, 7, 8, 9, 10, 11]
        (-1)).drop 1).length = 10 :=
  claim_C2_recipient_cap 100 8000 _ (-1) (by decide)

/-- Claim C5: the validated calculator fails with InvalidAmount on a
negative gross amount and with UnknownUser when the triggering user is not
in the graph, and on either failure the returned state is exactly the input
state: no user credited, no event appended, totals untouched. -/
theorem claim_C5_validation_no_side_effects (cfg : Config) (st : SimState)
    (ev : RewardEvent) :
    (ev.totalAmount < 0 →
      runEventChecked cfg st ev = (st, some CalcError.invalidAmount)) ∧
    (0 ≤ ev.totalAmount → findAgent st.agents ev.userId = none →
      runEventChecked cfg st ev = (st, some CalcError.unknownUser)) ∧
    (∀ e, (runEventChecked cfg st ev).2 = some e →
      (runEventChecked cfg st ev).1 = st) := by
  refine ⟨?_, ?_, ?_⟩
  · intro h
    simp [runEventChecked, h]
  · intro h0 hnf
    simp [runEventChecked, not_lt.mpr h0, hnf]
  · intro e he
    simp only [runEventChecked] at he ⊢
    split_ifs at he ⊢
    · rfl
    · rfl

/-- Claim C5 witness: the theorem applied to an event with gross amount -1
on an empty population: the calculator reports InvalidAmount and returns
the state unchanged. -/
theorem claim_C5_witness :
    runEventChecked ⟨DecayType.exponential, 7000, 1 / 100, 8000⟩
        ⟨[], [], 0, 0, 0⟩ ⟨3, -1, "purchase", 0⟩
      = (⟨[], [], 0, 0, 0⟩, some CalcError.invalidAmount) :=
  (claim_C5_validation_no_side_effects _ _ _).1 (by norm_num)

end ReferralTree
